import Mathlib

/-!
Shallow embedding of the MPI Jacobi Poisson solvers of this repository:
the 1D solver `src/C/mpi/jacobi.c` and the 2D solver (the unnamed C++
source).  Machine doubles are modelled by an arbitrary linear ordered
field `K` (instantiated with `ℚ` for concrete evaluations and applicable
to `ℝ`); per-rank work arrays `u`, `u_old`, `f` are modelled as total
functions `ℕ → K`, so that the out-of-range indices that the C code can
produce remain representable, with allocation bounds tracked separately.
Since every sweep ends in `MPI_Allreduce` (a barrier), the `P` ranks are
modelled in lockstep: a global state maps each rank to its arrays, and a
sweep transforms the whole global state at once.
-/

namespace MpiJacobi

section OneD

variable {K : Type*} [LinearOrderedField K]

/-- Problem parameter `alpha = 0.0` (boundary value at `a`), from jacobi.c line 29. -/
def alphaBC : K := 0

/-- Problem parameter `beta = 3.0` (boundary value at `b`), from jacobi.c line 29. -/
def betaBC : K := 3

/-- Domain endpoint `a = 0.0`, from jacobi.c line 29. -/
def aEnd : K := 0

/-- Domain endpoint `b = 1.0`, from jacobi.c line 29. -/
def bEnd : K := 1

/-- `MAX_ITERATIONS = 10000`, from jacobi.c line 32. -/
def MAX_ITERATIONS : ℕ := 10000

/-- `dx = (b - a) / (num_points + 1)`, from jacobi.c line 62. -/
def dx (np : ℕ) : K := (bEnd - aEnd) / ((np : K) + 1)

/-- `tolerance = 0.1 * pow(dx, 2)`, from jacobi.c line 63. -/
def tolerance (np : ℕ) : K := (1 / 10 : K) * (dx np : K) ^ 2

/-- `points_per_proc = (num_points + num_procs - 1) / num_procs`
(integer division), from jacobi.c line 66. -/
def pointsPerProc (np P : ℕ) : ℕ := (np + P - 1) / P

/-- The 0-based block start `start_index = rank * points_per_proc`,
from jacobi.c line 72. -/
def blockLo (np P r : ℕ) : ℕ := r * pointsPerProc np P

/-- The 0-based exclusive block end `min((rank + 1) * points_per_proc, num_points)`;
jacobi.c line 73 stores this value minus one as the inclusive `end_index`. -/
def blockHi (np P r : ℕ) : ℕ := min ((r + 1) * pointsPerProc np P) np

/-- The half-open range of 0-based interior indices assigned to rank `r`,
as computed (identically and independently on every rank) at
jacobi.c lines 66-73. -/
def block (np P r : ℕ) : Finset ℕ := Finset.Ico (blockLo np P r) (blockHi np P r)

/-- The 1-based loop start `start_index = rank * points_per_proc + 1`,
from jacobi.c line 80. -/
def startIndex (np P r : ℕ) : ℕ := r * pointsPerProc np P + 1

/-- The 1-based inclusive loop end `end_index = min((rank + 1) * points_per_proc, num_points)`,
from jacobi.c line 81. -/
def endIndex (np P r : ℕ) : ℕ := min ((r + 1) * pointsPerProc np P) np

/-- Each work array is allocated with `points_per_proc + 2` doubles,
from jacobi.c lines 84-86. -/
def allocSize (np P : ℕ) : ℕ := pointsPerProc np P + 2

/-- The indices `i` (into the local arrays) that the initialization loop
`for (i = start_index; i <= end_index; ++i)` touches, from jacobi.c line 89. -/
def initIndexList (np P r : ℕ) : List ℕ :=
  List.range' (startIndex np P r) (endIndex np P r + 1 - startIndex np P r)

/-- The indices the relaxation kernel loop
`for (i = 1; i < points_per_proc + 1; ++i)` visits, from jacobi.c line 134. -/
def kernelIndexList (np P : ℕ) : List ℕ := List.range' 1 (pointsPerProc np P)

/-- The indices `i` whose pair `(i * dx, u[i])` the per-rank output block writes:
`u[0]` on rank 0, then `for (i = 1; i < end_index; ++i)`, then `u[end_index + 1]`
on the last rank, from jacobi.c lines 232-242. -/
def outputIndexList (np P r : ℕ) : List ℕ :=
  (if r = 0 then [0] else []) ++ List.range' 1 (endIndex np P r - 1)
    ++ (if r = P - 1 then [endIndex np P r + 1] else [])


/- ### Halo exchange: the messages of jacobi.c lines 114-130 -/

end OneD

/-- A point-to-point message: `MPI_Isend(&u_old[payloadIndex], 1, ..., dest, tag, ...)`
posted by rank `src`. -/
structure Msg where
  src : ℕ
  dest : ℕ
  tag : ℕ
  payloadIndex : ℕ
deriving DecidableEq

/-- A blocking receive: `MPI_Recv(&u_old[targetIndex], 1, ..., peer, tag, ...)`. -/
structure Recv where
  peer : ℕ
  tag : ℕ
  targetIndex : ℕ
deriving DecidableEq

section OneDComm

variable {K : Type*} [LinearOrderedField K]

/-- The non-blocking sends rank `r` posts each sweep: `&u_old[0]` to `r - 1` with
tag `1` when `r > 0` (jacobi.c line 117), then `&u_old[end_index + 1]` to `r + 1`
with tag `2` when `r < P - 1` (jacobi.c line 122). -/
def sendsOf (np P r : ℕ) : List Msg :=
  (if 0 < r then [⟨r, r - 1, 1, 0⟩] else [])
    ++ (if r < P - 1 then [⟨r, r + 1, 2, endIndex np P r + 1⟩] else [])

/-- The blocking receives rank `r` then posts, in program order: from `r + 1` with
tag `1` into `&u_old[end_index + 1]` when `r < P - 1` (jacobi.c line 128), then
from `r - 1` with tag `2` into `&u_old[0]` when `r > 0` (jacobi.c line 130). -/
def recvsOf (np P r : ℕ) : List Recv :=
  (if r < P - 1 then [⟨r + 1, 1, endIndex np P r + 1⟩] else [])
    ++ (if 0 < r then [⟨r - 1, 2, 0⟩] else [])

/- ### Per-rank state and the three phases of one sweep -/

/-- The work arrays of one rank: `u` (current iterate), `u_old` (previous
iterate), `f` (right-hand side), from jacobi.c line 39. -/
structure RankState (K : Type*) where
  u : ℕ → K
  uold : ℕ → K
  f : ℕ → K

/-- Sweep phase 1, the snapshot copy
`for (i = 0; i < points_per_proc + 2; ++i) u_old[i] = u[i];`, jacobi.c lines 108-109. -/
def copyPhase (np P : ℕ) (s : RankState K) : RankState K :=
  ⟨s.u, fun i => if i < allocSize np P then s.u i else s.uold i, s.f⟩

/-- Sweep phase 2, the halo exchange, jacobi.c lines 114-130, acting on the
post-copy global state `g`.  Each rank receives, with tag `1` from `r + 1` into
`u_old[end_index + 1]` and then with tag `2` from `r - 1` into `u_old[0]`, the
value the peer's matching `MPI_Isend` posted: rank `r + 1` sent its `&u_old[0]`
leftward and rank `r - 1` sent its `&u_old[end_index + 1]` rightward.  The
non-blocking sends are modelled as capturing the buffer at post time (the code
never waits on the `MPI_Request`, so the later receive into the same buffer is
a latent data hazard in the source; the eager capture is the intended reading). -/
def exchangePhase (np P : ℕ) (g : ℕ → RankState K) (r : ℕ) : RankState K :=
  ⟨(g r).u,
    fun i =>
      if 0 < r ∧ i = 0 then (g (r - 1)).uold (endIndex np P (r - 1) + 1)
      else if r < P - 1 ∧ i = endIndex np P r + 1 then (g (r + 1)).uold 0
      else (g r).uold i,
    (g r).f⟩

/-- One iteration of the relaxation kernel body, jacobi.c lines 136-137:
`u[i] = 0.5 * (u_old[i-1] + u_old[i+1] - pow(dx, 2) * f[i]);`
`du_max_proc = fmax(du_max_proc, fabs(u[i] - u_old[i]));`
The accumulator carries the `u` array and `du_max_proc`. -/
def kernelStep (np : ℕ) (fA uoldA : ℕ → K) (acc : (ℕ → K) × K) (i : ℕ) : (ℕ → K) × K :=
  ((Function.update acc.1 i
      ((1 / 2 : K) * (uoldA (i - 1) + uoldA (i + 1) - (dx np) ^ 2 * fA i))),
    max acc.2 |(1 / 2 : K) * (uoldA (i - 1) + uoldA (i + 1) - (dx np) ^ 2 * fA i) - uoldA i|)

/-- Sweep phase 3, the relaxation kernel, jacobi.c lines 133-138:
`du_max_proc = 0.0;` then the loop over `i = 1 .. points_per_proc`.
Returns the updated rank state and its `du_max_proc`. -/
def kernelPhase (np P : ℕ) (s : RankState K) : RankState K × K :=
  (⟨((kernelIndexList np P).foldl (kernelStep np s.f s.uold) (s.u, 0)).1, s.uold, s.f⟩,
    ((kernelIndexList np P).foldl (kernelStep np s.f s.uold) (s.u, 0)).2)

/-- The global state each rank's kernel reads: copy then exchange. -/
def preKernel (np P : ℕ) (g : ℕ → RankState K) (r : ℕ) : RankState K :=
  exchangePhase np P (fun q => copyPhase np P (g q)) r

/-- Rank `r`'s `du_max_proc` for the sweep starting from global state `g`. -/
def duMaxProc (np P : ℕ) (g : ℕ → RankState K) (r : ℕ) : K :=
  (kernelPhase np P (preKernel np P g r)).2

/-- `MPI_Allreduce(..., MPI_MAX, ...)` over the `P` ranks' contributions
(jacobi.c line 141): every rank receives the same maximum of all contributions. -/
def allreduceMax (P : ℕ) (d : ℕ → K) : K :=
  (List.range P).foldl (fun m r => max m (d r)) (d 0)

/-- The per-rank result of one whole sweep. -/
def sweepU (np P : ℕ) (g : ℕ → RankState K) : ℕ → RankState K :=
  fun r => (kernelPhase np P (preKernel np P g r)).1

/-- The `du_max` every rank holds after the sweep's all-reduce. -/
def duMax (np P : ℕ) (g : ℕ → RankState K) : K :=
  allreduceMax P (duMaxProc np P g)

/- ### Pointwise evaluation of the kernel fold -/

/-- The stencil value the kernel writes at index `i`. -/
def stencil1D (np : ℕ) (fA uoldA : ℕ → K) (i : ℕ) : K :=
  (1 / 2 : K) * (uoldA (i - 1) + uoldA (i + 1) - (dx np) ^ 2 * fA i)


/-- Folding `max` of a pointwise quantity along a visitation order. -/
def deltaFold (w : ℕ → K) (d0 : K) (l : List ℕ) : K :=
  l.foldl (fun d i => max d (w i)) d0

/-- The Jacobi iteration loop `while (N < MAX_ITERATIONS) { ... }`,
jacobi.c lines 105-152.  Each pass copies, exchanges, relaxes, all-reduces
`du_max`, breaks if `du_max < tolerance` (line 149-150), and otherwise
increments `N` (line 151).  The fuel argument counts the remaining passes
`MAX_ITERATIONS - N`; the result is the final global state, `du_max`, and `N`. -/
def loop (np P : ℕ) : ℕ → (ℕ → RankState K) → K → ℕ → ((ℕ → RankState K) × K × ℕ)
  | 0, g, d, n => (g, d, n)
  | fuel + 1, g, _, n =>
    if duMax np P g < tolerance np then (sweepU np P g, duMax np P g, n)
    else loop np P fuel (sweepU np P g) (duMax np P g) (n + 1)

/-- The whole iteration phase: `N` starts at the (uninitialized, hence
parametric) value `n0`, `du_max` at the junk value `d0`, and the loop body can
run at most `MAX_ITERATIONS - n0` times before `N < MAX_ITERATIONS` fails. -/
def run (np P n0 : ℕ) (d0 : K) (g0 : ℕ → RankState K) :
    ((ℕ → RankState K) × K × ℕ) :=
  loop np P (MAX_ITERATIONS - n0) g0 d0 n0

/-- What a rank does after the loop, jacobi.c lines 158-245: exit code,
whether it writes its output file, and whether it prints the
`*** Jacobi failed to converge!` report. -/
structure ExitInfo where
  exitCode : ℕ
  wroteOutput : Bool
  printedFailReport : Bool
deriving DecidableEq

/-- Rank `r`'s epilogue, given the final `N`: on `N >= MAX_ITERATIONS`
only rank 0 prints the failure report and every rank returns `1` without
writing output (lines 160-170); otherwise every rank writes its file and
returns `0` (lines 173-249). -/
def finishRank (r n : ℕ) : ExitInfo :=
  if MAX_ITERATIONS ≤ n then ⟨1, false, decide (r = 0)⟩ else ⟨0, true, false⟩

/-- The content of the failure report, jacobi.c lines 165-166: the final
`du_max` and the tolerance. -/
def failReport (np : ℕ) (d : K) : K × K := (d, tolerance np)


/-- Modelled from the spec: one standard serial Jacobi sweep on `np` interior
points (spec section 4.3 and the glossary), against which the `P = 1`
distributed sweep is compared.  The previous iterate is the snapshot of the
current one, and each interior point `1 <= i <= np` receives
`0.5 * (u_old[i-1] + u_old[i+1] - dx^2 * f[i])`, folding the running maximum
absolute change. -/
def serialSweep (np : ℕ) (s : RankState K) : RankState K × K :=
  (⟨((List.range' 1 np).foldl
        (kernelStep np s.f (fun i => if i < np + 2 then s.u i else s.uold i))
        (s.u, 0)).1,
      fun i => if i < np + 2 then s.u i else s.uold i, s.f⟩,
    ((List.range' 1 np).foldl
        (kernelStep np s.f (fun i => if i < np + 2 then s.u i else s.uold i))
        (s.u, 0)).2)


end OneDComm

namespace TwoD

/-- The 2D solver's startup check, from the unnamed C++ source lines 54-59:
with a single process it prints
`This program only handles more than one process.` and finalizes
immediately, before any decomposition, allocation or iteration. -/
inductive StartResult where
  | configError : StartResult
  | proceed : StartResult
deriving DecidableEq

/-- `if (num_procs == 1) { ... return 0; }`, lines 54-59. -/
def startCheck (P : ℕ) : StartResult :=
  if P = 1 then StartResult.configError else StartResult.proceed

/-- `num_points = 20`, line 62. -/
def numPoints : ℕ := 20

/-- `rank_num_points = (num_points + num_procs - 1) / num_procs`, line 68. -/
def rankNumPoints (P : ℕ) : ℕ := (numPoints + P - 1) / P

/-- The 2D main's decomposition outcome: `none` when the startup check
refuses to run (so no decomposition is attempted), otherwise rank `r`'s
`(start_index, end_index)` pair from lines 69-70. -/
def main2D (P : ℕ) : Option (ℕ → ℕ × ℕ) :=
  if P = 1 then none
  else some (fun r => (r * rankNumPoints P + 1, min ((r + 1) * rankNumPoints P) numPoints))

section Kernel2D

variable {K : Type*} [LinearOrderedField K]

/-- Writing one entry of the 2D array `u[i][j]`. -/
def update2 (g : ℕ → ℕ → K) (i j : ℕ) (v : K) : ℕ → ℕ → K :=
  fun a b => if a = i ∧ b = j then v else g a b

/-- The stencil value of the 2D kernel at `(i, j)`, lines 173: `u[i][j] =
0.25 * (u_old[i-1][j] + u_old[i+1][j] + u_old[i][j-1] + u_old[i][j+1] - pow(dx, 2) * f[i][j])`. -/
def stencil2D (dxv : K) (fA uoldA : ℕ → ℕ → K) (i j : ℕ) : K :=
  (1 / 4 : K) * (uoldA (i - 1) j + uoldA (i + 1) j + uoldA i (j - 1) + uoldA i (j + 1)
    - dxv ^ 2 * fA i j)

/-- One iteration of the 2D kernel body, lines 173-174. -/
def kernelStep2D (dxv : K) (fA uoldA : ℕ → ℕ → K) (acc : (ℕ → ℕ → K) × K)
    (i j : ℕ) : (ℕ → ℕ → K) × K :=
  (update2 acc.1 i j (stencil2D dxv fA uoldA i j),
    max acc.2 |stencil2D dxv fA uoldA i j - uoldA i j|)

/-- The 2D relaxation double loop, lines 169-175:
`for (i = 1; i < num_points + 1; ++i) for (j = 1; j < rank_num_points + 1; ++j)`. -/
def kernelPhase2D (np rnp : ℕ) (dxv : K) (fA uoldA u0 : ℕ → ℕ → K) :
    (ℕ → ℕ → K) × K :=
  (List.range' 1 np).foldl
    (fun acc i => (List.range' 1 rnp).foldl
      (fun acc2 j => kernelStep2D dxv fA uoldA acc2 i j) acc)
    (u0, 0)


end Kernel2D

end TwoD

/- ### Concrete states used to evaluate the model at specific inputs -/

/-- A global state whose entries name their rank and index, to watch where
data moves during an exchange. -/
def gProbe : ℕ → RankState ℚ :=
  fun r => ⟨fun i => ((10 * r + i : ℕ) : ℚ), fun i => ((100 * r + i : ℕ) : ℚ), fun _ => 0⟩

/-- The all-zero global state. -/
def gZero : ℕ → RankState ℚ :=
  fun _ => ⟨fun _ => 0, fun _ => 0, fun _ => 0⟩

section Claims

variable {K : Type*} [LinearOrderedField K]

/- ### Arithmetic facts about the partition -/

theorem pointsPerProc_pos {np P : ℕ} (hnp : 1 ≤ np) (hP : 1 ≤ P) :
    1 ≤ pointsPerProc np P := by
  unfold pointsPerProc
  rw [Nat.le_div_iff_mul_le hP]
  omega

theorem pointsPerProc_le {np P : ℕ} (hP : 1 ≤ P) : pointsPerProc np P ≤ np := by
  unfold pointsPerProc
  rw [Nat.div_le_iff_le_mul_add_pred hP]
  have h1 : np ≤ P * np := Nat.le_mul_of_pos_left np hP
  omega

theorem le_mul_pointsPerProc {np P : ℕ} (hP : 1 ≤ P) :
    np ≤ P * pointsPerProc np P := by
  have h := Nat.div_add_mod (np + P - 1) P
  have h2 : (np + P - 1) % P < P := Nat.mod_lt _ hP
  unfold pointsPerProc
  set A := P * ((np + P - 1) / P) with hA
  omega

theorem ppp_le_endIndex {np P r : ℕ} (hP : 1 ≤ P) :
    pointsPerProc np P ≤ endIndex np P r := by
  have h1 : pointsPerProc np P ≤ (r + 1) * pointsPerProc np P := by
    have := Nat.le_mul_of_pos_left (pointsPerProc np P) (show 0 < r + 1 by omega)
    omega
  have h2 := @pointsPerProc_le np P hP
  unfold endIndex
  omega

/-- Membership in rank `r`'s block, for an interior index `i < np`. -/
theorem mem_block_iff {np P r i : ℕ} (hi : i < np) :
    i ∈ block np P r ↔ r * pointsPerProc np P ≤ i ∧ i < (r + 1) * pointsPerProc np P := by
  simp only [block, blockLo, blockHi, Finset.mem_Ico]
  omega

/-- Telescoping sum of truncated block sizes. -/
theorem sum_min_blocks (m N : ℕ) :
    ∀ P : ℕ, (∑ r ∈ Finset.range P, (min ((r + 1) * m) N - r * m)) = min (P * m) N := by
  intro P
  induction P with
  | zero => simp
  | succ Q ih =>
    rw [Finset.sum_range_succ, ih, add_one_mul]
    set A := Q * m with hA
    omega

/-- C3, contiguous block partition: rank `r` receives exactly
`[r * ceil(N/P), min((r+1) * ceil(N/P), N))`; the block sizes sum to `N`,
every interior index has exactly one owning rank, and blocks are strictly
ordered by rank. -/
theorem claim3_partition (np P : ℕ) (hnp : 1 ≤ np) (hP : 1 ≤ P) :
    (∀ r, block np P r = Finset.Ico (r * pointsPerProc np P)
      (min ((r + 1) * pointsPerProc np P) np)) ∧
    (∑ r ∈ Finset.range P, (block np P r).card) = np ∧
    (∀ i, i < np → ∃! r, r < P ∧ i ∈ block np P r) ∧
    (∀ r s, r < s → ∀ i ∈ block np P r, ∀ j ∈ block np P s, i < j) := by
  have hppp : 1 ≤ pointsPerProc np P := pointsPerProc_pos hnp hP
  refine ⟨fun r => rfl, ?_, ?_, ?_⟩
  · have hcard : ∀ r, (block np P r).card = min ((r + 1) * pointsPerProc np P) np
        - r * pointsPerProc np P := by
      intro r
      simp [block, blockLo, blockHi, Nat.card_Ico]
    calc (∑ r ∈ Finset.range P, (block np P r).card)
        = ∑ r ∈ Finset.range P, (min ((r + 1) * pointsPerProc np P) np
            - r * pointsPerProc np P) := Finset.sum_congr rfl (fun r _ => hcard r)
      _ = min (P * pointsPerProc np P) np := sum_min_blocks _ _ _
      _ = np := min_eq_right (le_mul_pointsPerProc hP)
  · intro i hi
    refine ⟨i / pointsPerProc np P, ⟨?_, ?_⟩, ?_⟩
    · rw [Nat.div_lt_iff_lt_mul hppp]
      calc i < np := hi
        _ ≤ P * pointsPerProc np P := le_mul_pointsPerProc hP
        _ = P * pointsPerProc np P := rfl
    · rw [mem_block_iff hi]
      constructor
      · exact Nat.div_mul_le_self i (pointsPerProc np P)
      · have hd := Nat.div_add_mod i (pointsPerProc np P)
        have hm : i % pointsPerProc np P < pointsPerProc np P := Nat.mod_lt _ hppp
        rw [add_one_mul]
        set A := pointsPerProc np P * (i / pointsPerProc np P) with hA
        have hA2 : i / pointsPerProc np P * pointsPerProc np P = A := Nat.mul_comm _ _
        omega
    · intro y hy
      obtain ⟨hyP, hymem⟩ := hy
      rw [mem_block_iff hi] at hymem
      have h1 : y * pointsPerProc np P ≤ i := hymem.1
      have h2 : i < (y + 1) * pointsPerProc np P := hymem.2
      have hle : y ≤ i / pointsPerProc np P := by
        rw [Nat.le_div_iff_mul_le hppp]
        exact h1
      have hge : i / pointsPerProc np P < y + 1 := by
        rw [Nat.div_lt_iff_lt_mul hppp]
        exact h2
      omega
  · intro r s hrs i hiB j hjB
    simp only [block, blockLo, blockHi, Finset.mem_Ico] at hiB hjB
    have h1 : (r + 1) * pointsPerProc np P ≤ s * pointsPerProc np P :=
      Nat.mul_le_mul_right _ (by omega)
    omega


theorem kernel_foldl_fst (np : ℕ) (fA uoldA : ℕ → K) :
    ∀ (l : List ℕ) (g0 : ℕ → K) (d0 : K) (j : ℕ),
      ((l.foldl (kernelStep np fA uoldA) (g0, d0)).1) j =
        if j ∈ l then stencil1D np fA uoldA j else g0 j := by
  intro l
  induction l with
  | nil => intro g0 d0 j; simp
  | cons a t ih =>
    intro g0 d0 j
    rw [List.foldl_cons]
    show ((t.foldl (kernelStep np fA uoldA) (kernelStep np fA uoldA (g0, d0) a)).1) j = _
    rw [show kernelStep np fA uoldA (g0, d0) a
        = ((Function.update g0 a (stencil1D np fA uoldA a)),
            max d0 |stencil1D np fA uoldA a - uoldA a|) from rfl]
    rw [ih]
    by_cases hjt : j ∈ t
    · simp [hjt]
    · by_cases hja : j = a
      · subst hja
        simp [hjt, Function.update_same]
      · simp [hjt, hja, Function.update_noteq hja]


theorem kernel_foldl_snd (np : ℕ) (fA uoldA : ℕ → K) :
    ∀ (l : List ℕ) (g0 : ℕ → K) (d0 : K),
      ((l.foldl (kernelStep np fA uoldA) (g0, d0)).2) =
        deltaFold (fun i => |stencil1D np fA uoldA i - uoldA i|) d0 l := by
  intro l
  induction l with
  | nil => intro g0 d0; rfl
  | cons a t ih =>
    intro g0 d0
    rw [List.foldl_cons]
    show ((t.foldl (kernelStep np fA uoldA) (kernelStep np fA uoldA (g0, d0) a)).2) = _
    rw [show kernelStep np fA uoldA (g0, d0) a
        = ((Function.update g0 a (stencil1D np fA uoldA a)),
            max d0 |stencil1D np fA uoldA a - uoldA a|) from rfl]
    rw [ih]
    rfl

theorem deltaFold_perm (w : ℕ → K) {l1 l2 : List ℕ} (p : l1.Perm l2) :
    ∀ d0 : K, deltaFold w d0 l1 = deltaFold w d0 l2 := by
  induction p with
  | nil => intro d0; rfl
  | cons x _ ih =>
    intro d0
    simp only [deltaFold, List.foldl_cons] at *
    exact ih _
  | swap x y l =>
    intro d0
    simp only [deltaFold, List.foldl_cons]
    have h : max (max d0 (w y)) (w x) = max (max d0 (w x)) (w y) := by
      rw [max_assoc, max_comm (w y) (w x), ← max_assoc]
    rw [h]
  | trans _ _ ih1 ih2 =>
    intro d0
    rw [ih1 d0, ih2 d0]


/- ### The all-reduce computes the maximum -/

theorem foldl_max_init_le (l : List K) : ∀ d0 : K, d0 ≤ l.foldl max d0 := by
  induction l with
  | nil => intro d0; exact le_refl _
  | cons a t ih =>
    intro d0
    rw [List.foldl_cons]
    calc d0 ≤ max d0 a := le_max_left _ _
      _ ≤ t.foldl max (max d0 a) := ih _

theorem foldl_max_le_of_mem {l : List K} {x : K} (h : x ∈ l) :
    ∀ d0 : K, x ≤ l.foldl max d0 := by
  induction l with
  | nil => cases h
  | cons a t ih =>
    intro d0
    rw [List.foldl_cons]
    rcases List.mem_cons.mp h with h1 | h2
    · subst h1
      exact le_trans (le_max_right d0 x) (foldl_max_init_le t _)
    · exact ih h2 _

theorem foldl_max_cases (l : List K) : ∀ d0 : K,
    l.foldl max d0 = d0 ∨ l.foldl max d0 ∈ l := by
  induction l with
  | nil => intro d0; exact Or.inl rfl
  | cons a t ih =>
    intro d0
    rw [List.foldl_cons]
    rcases ih (max d0 a) with h | h
    · rcases max_choice d0 a with hc | hc
      · exact Or.inl (h.trans hc)
      · exact Or.inr (List.mem_cons.mpr (Or.inl (h.trans hc)))
    · exact Or.inr (List.mem_cons.mpr (Or.inr h))

theorem allreduceMax_eq_foldl_map (P : ℕ) (d : ℕ → K) :
    allreduceMax P d = ((List.range P).map d).foldl max (d 0) := by
  rw [allreduceMax, List.foldl_map]

theorem allreduceMax_ge (P : ℕ) (d : ℕ → K) {r : ℕ} (hr : r < P) :
    d r ≤ allreduceMax P d := by
  rw [allreduceMax_eq_foldl_map]
  exact foldl_max_le_of_mem (List.mem_map.mpr ⟨r, List.mem_range.mpr hr, rfl⟩) _

theorem allreduceMax_attained (P : ℕ) (d : ℕ → K) (hP : 1 ≤ P) :
    ∃ r, r < P ∧ allreduceMax P d = d r := by
  rw [allreduceMax_eq_foldl_map]
  rcases foldl_max_cases ((List.range P).map d) (d 0) with h | h
  · exact ⟨0, hP, h⟩
  · obtain ⟨r, hr, hd⟩ := List.mem_map.mp h
    exact ⟨r, List.mem_range.mp hr, hd.symm⟩


theorem loop_counter_le (np P : ℕ) :
    ∀ (fuel : ℕ) (g : ℕ → RankState K) (d : K) (n : ℕ),
      n ≤ (loop np P fuel g d n).2.2 := by
  intro fuel
  induction fuel with
  | zero => intro g d n; exact le_refl _
  | succ m ih =>
    intro g d n
    rw [loop]
    split
    · exact le_refl _
    · exact le_trans (Nat.le_succ n) (ih _ _ _)

theorem loop_exit_early_converged (np P : ℕ) :
    ∀ (fuel : ℕ) (g : ℕ → RankState K) (d : K) (n : ℕ),
      (loop np P fuel g d n).2.2 < n + fuel →
        (loop np P fuel g d n).2.1 < tolerance np := by
  intro fuel
  induction fuel with
  | zero => intro g d n h; simp only [loop] at h; omega
  | succ m ih =>
    intro g d n h
    by_cases hc : duMax np P g < tolerance np
    · rw [loop, if_pos hc] at h ⊢
      exact hc
    · rw [loop, if_neg hc] at h ⊢
      refine ih _ _ _ ?_
      omega


namespace TwoD

section Kernel2D

theorem kernel2D_inner_fst (dxv : K) (fA uoldA : ℕ → ℕ → K) (i : ℕ) :
    ∀ (lj : List ℕ) (acc : (ℕ → ℕ → K) × K) (a b : ℕ),
      ((lj.foldl (fun acc2 j => kernelStep2D dxv fA uoldA acc2 i j) acc).1) a b =
        if a = i ∧ b ∈ lj then stencil2D dxv fA uoldA a b else acc.1 a b := by
  intro lj
  induction lj with
  | nil => intro acc a b; simp
  | cons c t ih =>
    intro acc a b
    rw [List.foldl_cons, ih]
    by_cases hbt : a = i ∧ b ∈ t
    · simp [hbt.1, hbt.2]
    · by_cases hbc : a = i ∧ b = c
      · simp only [hbc.1, hbc.2, kernelStep2D, update2]
        simp [List.mem_cons]
      · have : ¬(a = i ∧ b ∈ c :: t) := by
          rw [List.mem_cons]
          tauto
        simp only [this, if_neg, kernelStep2D, update2]
        have : ¬(a = i ∧ b = c) := hbc
        simp [hbt, this]

theorem kernel2D_outer_fst (rnp : ℕ) (dxv : K) (fA uoldA : ℕ → ℕ → K) :
    ∀ (li : List ℕ) (acc : (ℕ → ℕ → K) × K) (a b : ℕ),
      ((li.foldl (fun acc i => (List.range' 1 rnp).foldl
          (fun acc2 j => kernelStep2D dxv fA uoldA acc2 i j) acc) acc).1) a b =
        if a ∈ li ∧ b ∈ List.range' 1 rnp then stencil2D dxv fA uoldA a b
        else acc.1 a b := by
  intro li
  induction li with
  | nil => intro acc a b; simp
  | cons c t ih =>
    intro acc a b
    rw [List.foldl_cons, ih, kernel2D_inner_fst]
    simp only [List.mem_cons, List.mem_range'_1]
    by_cases hb : 1 ≤ b ∧ b < 1 + rnp
    · by_cases hat : a ∈ t
      · simp [hat, hb]
      · by_cases hac : a = c
        · simp [hac, hat, hb]
        · simp [hac, hat, hb]
    · simp [hb]

theorem kernelPhase2D_fst (np rnp : ℕ) (dxv : K) (fA uoldA u0 : ℕ → ℕ → K)
    (a b : ℕ) :
    (kernelPhase2D np rnp dxv fA uoldA u0).1 a b =
      if (1 ≤ a ∧ a ≤ np) ∧ (1 ≤ b ∧ b ≤ rnp) then stencil2D dxv fA uoldA a b
      else u0 a b := by
  rw [kernelPhase2D, kernel2D_outer_fst]
  have h1 : (a ∈ List.range' 1 np) ↔ (1 ≤ a ∧ a ≤ np) := by
    rw [List.mem_range'_1]
    omega
  have h2 : (b ∈ List.range' 1 rnp) ↔ (1 ≤ b ∧ b ≤ rnp) := by
    rw [List.mem_range'_1]
    omega
  simp only [h1, h2]


end Kernel2D

end TwoD

/-- Evaluation of the 1D kernel's writes: inside the loop range the stencil
value, outside it the old entry of `u`. -/
theorem kernelPhase_u (np P : ℕ) (s : RankState K) (i : ℕ) :
    (kernelPhase np P s).1.u i =
      if i ∈ kernelIndexList np P then stencil1D np s.f s.uold i else s.u i := by
  show ((kernelIndexList np P).foldl (kernelStep np s.f s.uold) (s.u, 0)).1 i = _
  rw [kernel_foldl_fst]

/-- The 1D kernel's `du_max_proc` as a fold over the visitation order. -/
theorem kernelPhase_delta (np P : ℕ) (s : RankState K) :
    (kernelPhase np P s).2 =
      deltaFold (fun i => |stencil1D np s.f s.uold i - s.uold i|) 0
        (kernelIndexList np P) := by
  show ((kernelIndexList np P).foldl (kernelStep np s.f s.uold) (s.u, 0)).2 = _
  rw [kernel_foldl_snd]

/-- C4: every interior point the 1D kernel visits receives exactly
`u[i] = 0.5 * (u_old[i-1] + u_old[i+1] - dx^2 * f[i])`, reading only the
previous-iterate snapshot (which the kernel leaves untouched), and every
point the 2D kernel visits receives exactly
`u[i][j] = 0.25 * (u_old[i-1][j] + u_old[i+1][j] + u_old[i][j-1] + u_old[i][j+1] - dx^2 * f[i][j])`. -/
theorem claim4_update_formula (np P : ℕ) (s : RankState K) (i : ℕ)
    (h1 : 1 ≤ i) (h2 : i ≤ pointsPerProc np P)
    (np2 rnp : ℕ) (dxv : K) (fA uoldA u0 : ℕ → ℕ → K) (a b : ℕ)
    (ha1 : 1 ≤ a) (ha2 : a ≤ np2) (hb1 : 1 ≤ b) (hb2 : b ≤ rnp) :
    ((kernelPhase np P s).1.u i
        = (1 / 2 : K) * (s.uold (i - 1) + s.uold (i + 1) - (dx np) ^ 2 * s.f i)) ∧
    ((kernelPhase np P s).1.uold = s.uold) ∧
    ((TwoD.kernelPhase2D np2 rnp dxv fA uoldA u0).1 a b
        = (1 / 4 : K) * (uoldA (a - 1) b + uoldA (a + 1) b + uoldA a (b - 1)
            + uoldA a (b + 1) - dxv ^ 2 * fA a b)) := by
  refine ⟨?_, rfl, ?_⟩
  · rw [kernelPhase_u]
    have hm : i ∈ kernelIndexList np P := by
      rw [kernelIndexList, List.mem_range'_1]
      omega
    rw [if_pos hm, stencil1D]
  · rw [TwoD.kernelPhase2D_fst, if_pos ⟨⟨ha1, ha2⟩, ⟨hb1, hb2⟩⟩, TwoD.stencil2D]

/-- C5: Jacobi write/read discipline of one sweep.  The snapshot copy and the
exchange never touch the current iterate `u`; the exchange writes `u_old` only
outside the kernel's index range `1..points_per_proc`; the kernel reads only
the post-exchange snapshot (its writes are the stencil of `u_old` alone),
leaves `u_old` untouched, and never writes the ghost entries `0` and
`points_per_proc + 1` of `u`. -/
theorem claim5_sweep_discipline (np P r : ℕ) (hP : 1 ≤ P) (g : ℕ → RankState K) :
    ((copyPhase np P (g r)).u = (g r).u) ∧
    ((preKernel np P g r).u = (g r).u) ∧
    (∀ i, 1 ≤ i → i ≤ pointsPerProc np P →
      (preKernel np P g r).uold i = (copyPhase np P (g r)).uold i) ∧
    (∀ i, 1 ≤ i → i ≤ pointsPerProc np P →
      (sweepU np P g r).u i
        = stencil1D np (preKernel np P g r).f (preKernel np P g r).uold i) ∧
    ((sweepU np P g r).uold = (preKernel np P g r).uold) ∧
    ((sweepU np P g r).u 0 = (preKernel np P g r).u 0) ∧
    ((sweepU np P g r).u (pointsPerProc np P + 1)
        = (preKernel np P g r).u (pointsPerProc np P + 1)) := by
  refine ⟨rfl, rfl, ?_, ?_, rfl, ?_, ?_⟩
  · intro i hi1 hi2
    have he := @ppp_le_endIndex np P r hP
    show (if 0 < r ∧ i = 0 then _ else if r < P - 1 ∧ i = endIndex np P r + 1 then _
        else (copyPhase np P (g r)).uold i) = (copyPhase np P (g r)).uold i
    rw [if_neg (by omega), if_neg (by omega)]
  · intro i hi1 hi2
    show (kernelPhase np P (preKernel np P g r)).1.u i = _
    rw [kernelPhase_u]
    have hm : i ∈ kernelIndexList np P := by
      rw [kernelIndexList, List.mem_range'_1]
      omega
    rw [if_pos hm]
  · show (kernelPhase np P (preKernel np P g r)).1.u 0 = _
    rw [kernelPhase_u]
    have hm : (0 : ℕ) ∉ kernelIndexList np P := by
      rw [kernelIndexList, List.mem_range'_1]
      omega
    rw [if_neg hm]
  · show (kernelPhase np P (preKernel np P g r)).1.u (pointsPerProc np P + 1) = _
    rw [kernelPhase_u]
    have hm : pointsPerProc np P + 1 ∉ kernelIndexList np P := by
      rw [kernelIndexList, List.mem_range'_1]
      omega
    rw [if_neg hm]

/-- C9: a rank's `du_max_proc` is the `max`-fold of `|current - previous|`
over its visited points, and this fold takes the same value along any
reordering of the visitation order. -/
theorem claim9_delta_reorder (np P : ℕ) (s : RankState K) (l : List ℕ)
    (hperm : (kernelIndexList np P).Perm l) :
    (kernelPhase np P s).2 =
      deltaFold (fun i => |stencil1D np s.f s.uold i - s.uold i|) 0 l := by
  rw [kernelPhase_delta]
  exact deltaFold_perm _ hperm 0

/-- C2: the all-reduce hands every rank the same `du_max`, which is the
maximum of all ranks' `du_max_proc`; the threshold is
`tolerance = 0.1 * dx^2` with `dx = (b - a) / (num_points + 1)`; and a pass
of the iteration loop breaks out exactly when `du_max < tolerance`. -/
theorem claim2_convergence_oracle (np P n fuel : ℕ) (hP : 1 ≤ P)
    (g : ℕ → RankState K) (d0 : K) :
    (duMax np P g = allreduceMax P (duMaxProc np P g)) ∧
    (∀ r, r < P → duMaxProc np P g r ≤ duMax np P g) ∧
    (∃ r, r < P ∧ duMax np P g = duMaxProc np P g r) ∧
    ((tolerance np : K) = (1 / 10 : K) * ((bEnd - aEnd : K) / ((np : K) + 1)) ^ 2) ∧
    ((loop np P (fuel + 1) g d0 n).2.2 = n ↔ duMax np P g < tolerance np) := by
  refine ⟨rfl, ?_, ?_, rfl, ?_, ?_⟩
  · intro r hr
    exact allreduceMax_ge P _ hr
  · exact allreduceMax_attained P _ hP
  · intro h
    by_contra hc
    rw [loop, if_neg hc] at h
    have := loop_counter_le np P fuel (sweepU np P g) (duMax np P g) (n + 1)
    omega
  · intro h
    rw [loop, if_pos h]

/-- Among ranks `0..P-1`, exactly one satisfies `rank = 0`. -/
theorem countP_rank_zero : ∀ P : ℕ, 1 ≤ P →
    (List.range P).countP (fun r => decide (r = 0)) = 1 := by
  intro P
  induction P with
  | zero => intro h; omega
  | succ Q ih =>
    intro _
    rw [List.range_succ, List.countP_append]
    rcases Nat.eq_zero_or_pos Q with hQ | hQ
    · subst hQ
      decide
    · rw [ih hQ]
      have hq0 : (decide (Q = 0)) = false := by
        simp
        omega
      simp [List.countP_cons, hq0]

/-- C6: if the final `N` has reached `MAX_ITERATIONS`, every rank returns the
failure status `1` without writing its output file, exactly one rank (rank 0)
prints the failure report, and the report carries the final `du_max` together
with the tolerance; if the final `N` is below the cap, every rank writes its
output file and returns `0`, and the final `du_max` is below the tolerance. -/
theorem claim6_nonconvergence_exit (np P n0 : ℕ) (hP : 1 ≤ P) (d0 : K)
    (g0 : ℕ → RankState K) (gfin : ℕ → RankState K) (dfin : K) (nfin : ℕ)
    (hrun : run np P n0 d0 g0 = (gfin, dfin, nfin)) :
    (MAX_ITERATIONS ≤ nfin →
      (∀ r, finishRank r nfin = ⟨1, false, decide (r = 0)⟩) ∧
      ((List.range P).countP (fun r => (finishRank r nfin).printedFailReport) = 1) ∧
      failReport np dfin = (dfin, tolerance np)) ∧
    (nfin < MAX_ITERATIONS →
      (∀ r, finishRank r nfin = ⟨0, true, false⟩) ∧ dfin < tolerance np) := by
  rw [run] at hrun
  constructor
  · intro hcap
    refine ⟨?_, ?_, rfl⟩
    · intro r
      rw [finishRank, if_pos hcap]
    · have hfun : (fun r => (finishRank r nfin).printedFailReport)
          = (fun r => decide (r = 0)) := by
        funext r
        rw [finishRank, if_pos hcap]
      rw [hfun]
      exact countP_rank_zero P hP
  · intro hlt
    constructor
    · intro r
      rw [finishRank, if_neg (by omega)]
    · rcases le_or_lt n0 MAX_ITERATIONS with h1 | h1
      · have h2 : (loop np P (MAX_ITERATIONS - n0) g0 d0 n0).2.2
            < n0 + (MAX_ITERATIONS - n0) := by
          rw [hrun]
          show nfin < n0 + (MAX_ITERATIONS - n0)
          omega
        have h3 := loop_exit_early_converged np P (MAX_ITERATIONS - n0) g0 d0 n0 h2
        rw [hrun] at h3
        exact h3
      · exfalso
        have hz : MAX_ITERATIONS - n0 = 0 := by omega
        rw [hz] at hrun
        simp only [loop] at hrun
        have h4 : n0 = nfin := congrArg (fun t => t.2.2) hrun
        omega

/-- C7: with a single worker the 1D solver posts no sends and no receives, the
exchange phase is the identity, and one distributed sweep coincides with one
standard serial Jacobi sweep; the 2D solver's startup check refuses a
single-process run as a configuration error before attempting any
decomposition. -/
theorem claim7_single_worker (np : ℕ) (g : ℕ → RankState K) :
    sendsOf np 1 0 = [] ∧
    recvsOf np 1 0 = [] ∧
    (preKernel np 1 g 0 = copyPhase np 1 (g 0)) ∧
    (sweepU np 1 g 0 = (serialSweep np (g 0)).1) ∧
    (duMax np 1 g = (serialSweep np (g 0)).2) ∧
    (TwoD.startCheck 1 = TwoD.StartResult.configError) ∧
    (TwoD.main2D 1 = none) := by
  have hppp : pointsPerProc np 1 = np := by
    simp [pointsPerProc]
  have hpre : preKernel np 1 g 0 = copyPhase np 1 (g 0) := rfl
  refine ⟨rfl, rfl, hpre, ?_, ?_, rfl, rfl⟩
  · show (kernelPhase np 1 (preKernel np 1 g 0)).1 = _
    rw [hpre]
    simp only [kernelPhase, serialSweep, kernelIndexList, copyPhase, allocSize, hppp]
  · show allreduceMax 1 (duMaxProc np 1 g) = _
    have hone : allreduceMax 1 (duMaxProc np 1 g) = duMaxProc np 1 g 0 := by
      simp [allreduceMax, List.range_succ, max_self]
    rw [hone]
    show (kernelPhase np 1 (preKernel np 1 g 0)).2 = _
    rw [hpre]
    simp only [kernelPhase, serialSweep, kernelIndexList, copyPhase, allocSize, hppp]

/-- C1: with `num_points = 4` and `P = 2` the leftward send of rank 1 carries
`u_old[0]` and the rightward send of rank 0 carries `u_old[3] = u_old[end_index+1]`
— both ghost entries, outside the kernel's owned range `{1, 2}` — so after the
exchange rank 0's upper ghost holds rank 1's ghost entry `u_old[0]` (value 100
in the probe state), not rank 1's lowest owned entry `u_old[1]` (value 101). -/
theorem claim1_sends_ghost_cells :
    sendsOf 4 2 0 = [⟨0, 1, 2, 3⟩] ∧
    sendsOf 4 2 1 = [⟨1, 0, 1, 0⟩] ∧
    kernelIndexList 4 2 = [1, 2] ∧
    (0 ∉ kernelIndexList 4 2) ∧ (3 ∉ kernelIndexList 4 2) ∧
    ((exchangePhase 4 2 gProbe 0).uold 3 = (gProbe 1).uold 0) ∧
    ((gProbe 1).uold 0 = 100) ∧ ((gProbe 1).uold 1 = 101) ∧
    ((exchangePhase 4 2 gProbe 0).uold 3 ≠ (gProbe 1).uold 1) := by
  refine ⟨by decide, by decide, by decide, by decide, by decide, ?_, ?_, ?_, ?_⟩
  · show (if 0 < 0 ∧ 3 = 0 then (gProbe (0 - 1)).uold (endIndex 4 2 (0 - 1) + 1)
        else if 0 < 2 - 1 ∧ 3 = endIndex 4 2 0 + 1 then (gProbe 1).uold 0
        else (gProbe 0).uold 3) = (gProbe 1).uold 0
    rw [if_neg (by decide), if_pos (by decide)]
  · show ((100 * 1 + 0 : ℕ) : ℚ) = 100
    norm_num
  · show ((100 * 1 + 1 : ℕ) : ℚ) = 101
    norm_num
  · show (if 0 < 0 ∧ 3 = 0 then (gProbe (0 - 1)).uold (endIndex 4 2 (0 - 1) + 1)
        else if 0 < 2 - 1 ∧ 3 = endIndex 4 2 0 + 1 then (gProbe 1).uold 0
        else (gProbe 0).uold 3) ≠ (gProbe 1).uold 1
    rw [if_neg (by decide), if_pos (by decide)]
    show ((100 * 1 + 0 : ℕ) : ℚ) ≠ ((100 * 1 + 1 : ℕ) : ℚ)
    norm_num

/-- C8: with `num_points = 4` and `P = 1` the single rank owns the interior
points `1..4` (`initIndexList`), but the output block writes the pairs for
indices `{0, 1, 2, 3, 5}` only — the owned point `4 = end_index` is never
written, because the output loop runs `i < end_index` instead of
`i <= end_index`. -/
theorem claim8_output_misses_owned_point :
    initIndexList 4 1 0 = [1, 2, 3, 4] ∧
    outputIndexList 4 1 0 = [0, 1, 2, 3, 5] ∧
    (4 ∈ initIndexList 4 1 0) ∧ (4 ∉ outputIndexList 4 1 0) := by
  decide

/-- C10: with `num_points = 4` and `P = 2`, rank 1 allocates
`points_per_proc + 2 = 4` doubles per array but its initialization loop runs
over the global indices `3..4 = start_index..end_index`, so the write at
index `4` is out of bounds. -/
theorem claim10_out_of_bounds_access :
    allocSize 4 2 = 4 ∧
    initIndexList 4 2 1 = [3, 4] ∧
    (4 ∈ initIndexList 4 2 1) ∧ ¬(4 < allocSize 4 2) := by
  decide

/- ### Witnesses -/

theorem claim2_witness :
    1 ≤ 1 ∧ (tolerance 1 : ℚ)
      = (1 / 10 : ℚ) * ((bEnd - aEnd : ℚ) / (((1 : ℕ) : ℚ) + 1)) ^ 2 :=
  ⟨by decide, (claim2_convergence_oracle 1 1 0 0 (by decide) gZero 0).2.2.2.1⟩

theorem claim3_witness :
    1 ≤ 4 ∧ 1 ≤ 2 ∧ (∑ r ∈ Finset.range 2, (block 4 2 r).card) = 4 :=
  ⟨by decide, by decide, (claim3_partition 4 2 (by decide) (by decide)).2.1⟩

theorem claim4_witness :
    1 ≤ 1 ∧ (kernelPhase 1 1 (gZero 0)).1.u 1
      = (1 / 2 : ℚ) * ((gZero 0).uold 0 + (gZero 0).uold 2
          - (dx 1) ^ 2 * (gZero 0).f 1) :=
  ⟨by decide,
    (claim4_update_formula 1 1 (gZero 0) 1 (by decide) (by decide) 1 1 0
      (fun _ _ => 0) (fun _ _ => 0) (fun _ _ => 0) 1 1
      (by decide) (by decide) (by decide) (by decide)).1⟩

theorem claim5_witness :
    1 ≤ 1 ∧ (sweepU 1 1 gZero 0).uold = (preKernel 1 1 gZero 0).uold :=
  ⟨by decide, (claim5_sweep_discipline 1 1 0 (by decide) gZero).2.2.2.2.1⟩

theorem claim6_witness :
    1 ≤ 1 ∧ (List.range 1).countP
      (fun r => (finishRank r 10000).printedFailReport) = 1 :=
  ⟨by decide,
    ((claim6_nonconvergence_exit 1 1 10000 (by decide) (0 : ℚ) gZero gZero 0 10000
      (by rfl)).1 (by decide)).2.1⟩

theorem claim9_witness :
    (kernelIndexList 3 1).Perm [3, 1, 2] ∧
    (kernelPhase 3 1 (gZero 0)).2
      = deltaFold (fun i => |stencil1D 3 (gZero 0).f (gZero 0).uold i
          - (gZero 0).uold i|) 0 [3, 1, 2] :=
  ⟨by decide, claim9_delta_reorder 3 1 (gZero 0) [3, 1, 2] (by decide)⟩


end Claims

end MpiJacobi
